import Mathlib

/-! Verification development for the NIST-news clustering workflow.

The notebook under verification builds a corpus of headline/description
strings scraped from the NIST news feed, vectorizes the corpus with a TF-IDF
vectorizer (document-frequency filtering plus English stop words), and
partitions the resulting term matrix with k-means (k-means++ initialization,
bounded iterations, restarts keeping the lowest objective).  The numeric
components are library calls in the notebook, so they are modelled here from
the specification; the glue code the notebook itself contains (corpus
construction, the word-cloud stop-word set, the top-term reporting loop) is
embedded directly from the source.  Weights are rationals, documents are
strings, matrices are lists of rows. -/

/-! ## Vector primitives -/

/-- Squared Euclidean distance between two equal-length weight vectors. -/
def dist2 (x y : List ℚ) : ℚ := ((x.zip y).map (fun p => (p.1 - p.2)^2)).sum

/-- Componentwise sum of two weight vectors. -/
def vecAdd (x y : List ℚ) : List ℚ := List.zipWith (· + ·) x y

/-- Sum of a list of weight vectors of dimension `m`. -/
def vecSum (m : ℕ) (pts : List (List ℚ)) : List ℚ := pts.foldr vecAdd (List.replicate m 0)

/-- Modelled from the spec: the centroid update value, the mean of the
assigned term vectors (spec 4.2 update step). -/
def centroidOf (m : ℕ) (pts : List (List ℚ)) : List ℚ :=
  (vecSum m pts).map (fun a => a / pts.length)

/-- Total squared centroid movement between two centroid lists. -/
def movement2 (cs cs' : List (List ℚ)) : ℚ := ((cs.zip cs').map (fun p => dist2 p.1 p.2)).sum

/-! ## Clusterer, modelled from the spec (the notebook delegates to a library
implementation that is not part of the repository source). -/

/-- Index of the smallest value of `f` on `0..k-1`; ties break to the lowest
index (spec 4.2 assignment-step tie-break). -/
def argmin (f : ℕ → ℚ) (k : ℕ) : ℕ :=
  (List.range k).foldl (fun b i => if f i < f b then i else b) 0

/-- Modelled from the spec: assignment step, every document row goes to the
nearest centroid by squared Euclidean distance. -/
def assignStep (cs : List (List ℚ)) (X : List (List ℚ)) : List ℕ :=
  X.map (fun x => argmin (fun i => dist2 x (cs.getD i [])) cs.length)

/-- Rows of `L` carrying cluster label `i`. -/
def members (i : ℕ) (L : List (List ℚ × ℕ)) : List (List ℚ) :=
  L.filterMap (fun p => if p.2 = i then some p.1 else none)

/-- Modelled from the spec: update step, each centroid becomes the mean of the
rows assigned to it; a centroid with no assigned rows keeps its previous
position (spec 4.2 default policy). -/
def updateStep (m : ℕ) (X : List (List ℚ)) (labels : List ℕ) (cs : List (List ℚ)) :
    List (List ℚ) :=
  (List.range cs.length).map (fun i =>
    if members i (X.zip labels) = [] then cs.getD i []
    else centroidOf m (members i (X.zip labels)))

/-- Objective value: sum over documents of the squared distance to the
assigned centroid. -/
def objective (X : List (List ℚ)) (labels : List ℕ) (cs : List (List ℚ)) : ℚ :=
  ((X.zip labels).map (fun p => dist2 p.1 (cs.getD p.2 []))).sum

/-- One clustering iteration: assignment step, then centroid update. -/
def kmIterate (m : ℕ) (X cs : List (List ℚ)) : List ℕ × List (List ℚ) :=
  (assignStep cs X, updateStep m X (assignStep cs X) cs)

/-- Objective value reached by the iteration started from centroids `cs`:
the assignments just computed, measured against the just-updated centroids. -/
def objAfter (m : ℕ) (X cs : List (List ℚ)) : ℚ :=
  objective X (kmIterate m X cs).1 (kmIterate m X cs).2

/-- Modelled from the spec: the seedable random source threaded through the
configuration (spec 9), a linear congruential step. -/
def rngNext (s : ℕ) : ℕ := (1103515245 * s + 12345) % 2147483648

/-- Smallest squared distance from `x` to any already-chosen centroid. -/
def minDist2 (cs : List (List ℚ)) (x : List ℚ) : ℚ :=
  match cs with
  | [] => 0
  | c :: rest => rest.foldl (fun b c' => min b (dist2 x c')) (dist2 x c)

/-- Walk a cumulative weight distribution and return the selected row. -/
def pickByWeight : List (List ℚ × ℚ) → ℚ → List ℚ
  | [], _ => []
  | [(x, _)], _ => x
  | (x, w) :: rest, t => if t < w then x else pickByWeight rest (t - w)

/-- Modelled from the spec: one k-means++ draw, a row sampled with probability
proportional to its squared distance to the nearest chosen centroid; the very
first draw is uniform (spec 4.3 initialization strategy). -/
def kmppPick (X : List (List ℚ)) (chosen : List (List ℚ)) (r : ℕ) : List ℚ :=
  if chosen = [] then X.getD (r % X.length) []
  else
    if (X.map (minDist2 chosen)).sum ≤ 0 then X.getD (r % X.length) []
    else pickByWeight (X.zip (X.map (minDist2 chosen)))
      (((r % 2147483648 : ℕ) : ℚ) / 2147483648 * (X.map (minDist2 chosen)).sum)

/-- Accumulator recursion for `kmInit`. -/
def kmInitAux (X : List (List ℚ)) : ℕ → List (List ℚ) → ℕ → List (List ℚ)
  | 0, acc, _ => acc.reverse
  | n+1, acc, s => kmInitAux X n (kmppPick X acc (rngNext s) :: acc) (rngNext s)

/-- Modelled from the spec: k-means++ initialization of `k` centroids from the
seedable random source. -/
def kmInit (X : List (List ℚ)) (k seed : ℕ) : List (List ℚ) := kmInitAux X k [] seed

/-- Error taxonomy of the spec (section 7). -/
inductive KMError where
  | ConfigurationError
  | EmptyCorpusError
  | NumericError

/-- Terminal state of one clustering run: final centroids, assignments,
iteration count, convergence flag, and achieved objective value. -/
structure KMResult where
  centroids : List (List ℚ)
  labels : List ℕ
  iterations : ℕ
  converged : Bool
  objValue : ℚ

/-- Clusterer configuration (spec 4.2): cluster count, iteration bound,
restart count, convergence tolerance, random seed. -/
structure KMConfig where
  k : ℕ
  maxIter : ℕ
  nRestarts : ℕ
  tol : ℚ
  seed : ℕ

/-- Modelled from the spec: the iteration loop; stop when the assignment
repeats or the squared centroid movement falls below the tolerance, else
continue until the iteration bound is exhausted (non-convergence is reported
through the flag, not as an error). -/
def kmLoop (m : ℕ) (X : List (List ℚ)) (tol : ℚ) :
    ℕ → List (List ℚ) → Option (List ℕ) → ℕ → KMResult
  | 0, cs, prev, iters =>
    ⟨cs, prev.getD (assignStep cs X), iters, false,
      objective X (prev.getD (assignStep cs X)) cs⟩
  | fuel+1, cs, prev, iters =>
    if prev = some (assignStep cs X) ∨
        movement2 cs (updateStep m X (assignStep cs X) cs) < tol then
      ⟨updateStep m X (assignStep cs X) cs, assignStep cs X, iters + 1, true,
        objective X (assignStep cs X) (updateStep m X (assignStep cs X) cs)⟩
    else
      kmLoop m X tol fuel (updateStep m X (assignStep cs X) cs)
        (some (assignStep cs X)) (iters + 1)

/-- One full Initialized-to-Terminal cycle from one seed. -/
def kmSingleRun (m : ℕ) (X : List (List ℚ)) (k seed maxIter : ℕ) (tol : ℚ) : KMResult :=
  kmLoop m X tol maxIter (kmInit X k seed) none 0

/-- The results of `n` independent restarts with seeds drawn in sequence. -/
def kmRuns (m : ℕ) (X : List (List ℚ)) (k maxIter : ℕ) (tol : ℚ) : ℕ → ℕ → List KMResult
  | 0, _ => []
  | n+1, s => kmSingleRun m X k s maxIter tol :: kmRuns m X k maxIter tol n (rngNext s)

/-- Restart selection: keep the result with the lowest objective value, ties
broken toward the earliest restart. -/
def kmBest (r : KMResult) (rs : List KMResult) : KMResult :=
  rs.foldl (fun b x => if x.objValue < b.objValue then x else b) r

/-- Modelled from the spec: the clusterer entry point.  An invalid cluster
count (zero, or larger than the number of rows) or invalid iteration, restart
or tolerance bounds are rejected with a `ConfigurationError` before any
initialization; otherwise the best of `nRestarts` runs is returned. -/
def kmFit (cfg : KMConfig) (X : List (List ℚ)) : Except KMError KMResult :=
  if cfg.k = 0 ∨ X.length < cfg.k then .error .ConfigurationError
  else if cfg.maxIter = 0 ∨ cfg.nRestarts = 0 ∨ cfg.tol < 0 then .error .ConfigurationError
  else
    match kmRuns (X.headD []).length X cfg.k cfg.maxIter cfg.tol cfg.nRestarts cfg.seed with
    | [] => .error .ConfigurationError
    | r :: rs => .ok (kmBest r rs)

/-! ## Clusterer as an explicit state machine over a stored matrix (for the
frame property: the term matrix is consumed read-only). -/

/-- Clustering state: the term matrix together with the mutable centroid and
assignment components owned by the clusterer. -/
structure KMState where
  matrix : List (List ℚ)
  centroids : List (List ℚ)
  labels : List ℕ

/-- One iteration of the state machine: recompute assignments, then update
centroids; only the clusterer-owned components are written. -/
def kmStateStep (m : ℕ) (s : KMState) : KMState :=
  { matrix := s.matrix
    centroids := updateStep m s.matrix (assignStep s.centroids s.matrix) s.centroids
    labels := assignStep s.centroids s.matrix }

/-- Iterate the state machine `n` times. -/
def kmStateIter (m : ℕ) : ℕ → KMState → KMState
  | 0, s => s
  | n+1, s => kmStateIter m n (kmStateStep m s)

/-- Modelled from the spec: the full Initialized-to-Terminal cycle repeated
over `n` restarts, each restart reinitializing the centroids from a fresh
seed and iterating up to the bound. -/
def kmRestartCycle (m k maxIter : ℕ) : ℕ → ℕ → KMState → KMState
  | 0, _, s => s
  | n+1, seed, s =>
    kmRestartCycle m k maxIter n (rngNext seed)
      (kmStateIter m maxIter { s with centroids := kmInit s.matrix k seed })

/-! ## Vectorizer, modelled from the spec (the notebook delegates to a library
TF-IDF vectorizer that is not part of the repository source). -/

/-- Modelled from the spec: tokenization, splitting on nonalphanumeric
boundaries and lowercasing. -/
def tokenizeAux : List Char → List Char → List String
  | [], cur => if cur.isEmpty then [] else [String.mk cur.reverse]
  | c :: rest, cur =>
    if c.isAlphanum then tokenizeAux rest (c.toLower :: cur)
    else if cur.isEmpty then tokenizeAux rest []
    else String.mk cur.reverse :: tokenizeAux rest []

/-- Normalized tokens of one document with stop words discarded. -/
def docTokens (stop : List String) (d : String) : List String :=
  (tokenizeAux d.data []).filter (fun t => decide (t ∉ stop))

/-- Document frequency: the number of documents containing term `t`. -/
def df (stop : List String) (docs : List String) (t : String) : ℕ :=
  (docs.filter (fun d => decide (t ∈ docTokens stop d))).length

/-- Term frequency of `t` in one document. -/
def tf (stop : List String) (d t : String) : ℕ :=
  ((docTokens stop d).filter (fun u => decide (u = t))).length

/-- Vectorizer configuration: minimum document-frequency count, maximum
document-frequency fraction of the corpus size, stop-word set. -/
structure VecConfig where
  minDf : ℕ
  maxDf : ℚ
  stop : List String

/-- Document-frequency retention test (spec 4.1 step 3), stated over integers:
`minDf ≤ DF` and `DF ≤ maxDf * N` with the rational bound cross-multiplied. -/
def dfKeep (cfg : VecConfig) (n dft : ℕ) : Bool :=
  decide (cfg.minDf ≤ dft) && decide ((dft * cfg.maxDf.den : ℤ) ≤ cfg.maxDf.num * n)

/-- Every token of the corpus, first occurrence order, without duplicates. -/
def allTerms (stop : List String) (docs : List String) : List String :=
  ((docs.map (docTokens stop)).flatten).dedup

/-- Kernel-computable lexicographic comparison on character lists. -/
def charListLe : List Char → List Char → Bool
  | [], _ => true
  | _ :: _, [] => false
  | c :: cs, d :: ds => if c = d then charListLe cs ds else decide (c < d)

/-- Lexicographic order on strings used for the stable column ordering. -/
def strLe (a b : String) : Prop := charListLe a.data b.data = true

instance : DecidableRel strLe := fun a b =>
  inferInstanceAs (Decidable (charListLe a.data b.data = true))

/-- Modelled from the spec: the vocabulary, all corpus terms whose document
frequency passes the retention test, in a deterministic lexicographic column
order (spec 4.1 step 4). -/
def vocabulary (cfg : VecConfig) (docs : List String) : List String :=
  List.insertionSort strLe
    ((allTerms cfg.stop docs).filter (fun t => dfKeep cfg docs.length (df cfg.stop docs t)))

/-- Modelled from the spec: TF-IDF cell weight; the inverse document
frequency is the monotonically decreasing rational function `N / DF + 1`. -/
def tfidfWeight (n tfc dfc : ℕ) : ℚ := tfc * ((n : ℚ) / dfc + 1)

/-- Modelled from the spec: the term matrix, one row per document, one column
per vocabulary term. -/
def termMatrix (cfg : VecConfig) (docs : List String) : List (List ℚ) :=
  docs.map (fun d =>
    (vocabulary cfg docs).map (fun t =>
      tfidfWeight docs.length (tf cfg.stop d t) (df cfg.stop docs t)))

/-- Modelled from the spec: the two-stage pipeline; an empty corpus or an
empty post-filtering vocabulary is rejected with an `EmptyCorpusError` before
the clustering phase (spec 7, eager detection). -/
def pipeline (vcfg : VecConfig) (kcfg : KMConfig) (docs : List String) :
    Except KMError KMResult :=
  if docs = [] then .error .EmptyCorpusError
  else if vocabulary vcfg docs = [] then .error .EmptyCorpusError
  else kmFit kcfg (termMatrix vcfg docs)

/-! ## Reporting helper (from the source: order_centroids and the top-term
printing loop). -/

/-- From the source: the per-centroid part of
`order_centroids = km.cluster_centers_.argsort()[:, ::-1]`, the column indices
of one centroid row in descending weight order. -/
def argsortDesc (w : List ℚ) : List ℕ :=
  List.insertionSort (fun i j => w.getD j 0 ≤ w.getD i 0) (List.range w.length)

/-- From the source: `terms[ind] for ind in order_centroids[i, :n]`, the top
`n` vocabulary terms of one centroid through the index-to-term mapping. -/
def topTermsOfCentroid (terms : List String) (c : List ℚ) (n : ℕ) : List String :=
  ((argsortDesc c).take n).map (fun i => terms.getD i "")

/-- From the source: the full `order_centroids` array, one index row per
centroid. -/
def orderCentroids (cs : List (List ℚ)) : List (List ℕ) := cs.map argsortDesc

/-- The reporting query over the clustering state and vocabulary: it returns
the state and vocabulary it was given together with the per-cluster top-term
lists, writing neither. -/
def reportTopTerms (terms : List String) (st : KMState) (n : ℕ) :
    (List String × KMState) × List (List String) :=
  ((terms, st), st.centroids.map (fun c => topTermsOfCentroid terms c n))

/-! ## Corpus construction (from the source notebook). -/

/-- From the source: the nested loop
`for each_headline: for each_description: news.append(headline+description)`
that builds the document list. -/
def news (list_of_headlines list_of_descriptions : List String) : List String :=
  ((list_of_headlines.map (fun h => list_of_descriptions.map (fun d => h ++ d)))).flatten

/-- The positional one-to-one pairing of headlines and descriptions that the
spec (section 9) takes as the intended corpus construction. -/
def newsPaired (H D : List String) : List String := List.zipWith (fun h d => h ++ d) H D

/-! ## Stop-word sets (from the source notebook). -/

/-- The seven domain terms the notebook adds to the word-cloud stop-word set. -/
def domainStopwords : List String :=
  ["nist", "national", "institute", "standard", "standards", "technology", "new"]

/-- From the source: the word-cloud stop-word set, the library base set plus
the seven domain terms added one by one. -/
def wordcloudStopwords (base : List String) : List String :=
  ((((((base.insert "nist").insert "national").insert "institute").insert
    "standard").insert "standards").insert "technology").insert "new"

/-- Modelled from the spec: the fixed standard English stop-word list the
vectorizer applies when configured with the english stop-word set (the
library list is not part of the repository source). -/
def englishStopWords : List String :=
  ["a", "about", "above", "across", "after", "afterwards", "again", "against",
   "all", "almost", "alone", "along", "already", "also", "although", "always",
   "am", "among", "amongst", "amoungst", "amount", "an", "and", "another",
   "any", "anyhow", "anyone", "anything", "anyway", "anywhere", "are",
   "around", "as", "at", "back", "be", "became", "because", "become",
   "becomes", "becoming", "been", "before", "beforehand", "behind", "being",
   "below", "beside", "besides", "between", "beyond", "bill", "both",
   "bottom", "but", "by", "call", "can", "cannot", "cant", "co", "con",
   "could", "couldnt", "cry", "de", "describe", "detail", "do", "done",
   "down", "due", "during", "each", "eg", "eight", "either", "eleven",
   "else", "elsewhere", "empty", "enough", "etc", "even", "ever", "every",
   "everyone", "everything", "everywhere", "except", "few", "fifteen",
   "fifty", "fill", "find", "fire", "first", "five", "for", "former",
   "formerly", "forty", "found", "four", "from", "front", "full", "further",
   "get", "give", "go", "had", "has", "hasnt", "have", "he", "hence", "her",
   "here", "hereafter", "hereby", "herein", "hereupon", "hers", "herself",
   "him", "himself", "his", "how", "however", "hundred", "i", "ie", "if",
   "in", "inc", "indeed", "interest", "into", "is", "it", "its", "itself",
   "keep", "last", "latter", "latterly", "least", "less", "ltd", "made",
   "many", "may", "me", "meanwhile", "might", "mill", "mine", "more",
   "moreover", "most", "mostly", "move", "much", "must", "my", "myself",
   "name", "namely", "neither", "never", "nevertheless", "next", "nine",
   "no", "nobody", "none", "noone", "nor", "not", "nothing", "now",
   "nowhere", "of", "off", "often", "on", "once", "one", "only", "onto",
   "or", "other", "others", "otherwise", "our", "ours", "ourselves", "out",
   "over", "own", "part", "per", "perhaps", "please", "put", "rather", "re",
   "same", "see", "seem", "seemed", "seeming", "seems", "serious", "several",
   "she", "should", "show", "side", "since", "sincere", "six", "sixty", "so",
   "some", "somehow", "someone", "something", "sometime", "sometimes",
   "somewhere", "still", "such", "system", "take", "ten", "than", "that",
   "the", "their", "them", "themselves", "then", "thence", "there",
   "thereafter", "thereby", "therefore", "therein", "thereupon", "these",
   "they", "thick", "thin", "third", "this", "those", "though", "three",
   "through", "throughout", "thru", "thus", "to", "together", "too", "top",
   "toward", "towards", "twelve", "twenty", "two", "un", "under", "until",
   "up", "upon", "us", "very", "via", "was", "we", "well", "were", "what",
   "whatever", "when", "whence", "whenever", "where", "whereafter",
   "whereas", "whereby", "wherein", "whereupon", "wherever", "whether",
   "which", "while", "whither", "who", "whoever", "whole", "whom", "whose",
   "why", "will", "with", "within", "without", "would", "yet", "you",
   "your", "yours", "yourself", "yourselves"]

/-! ## Concrete example data used by the evaluation witnesses -/

/-- The rational one half, written in reduced form so that its numerator and
denominator evaluate by kernel reduction. -/
def ratHalf : ℚ := ⟨1, 2, by decide, Nat.coprime_one_left 2⟩

/-- A five-document corpus in which the seven domain terms appear in exactly
two documents each. -/
def nistExampleCorpus : List String :=
  ["nist national institute standard standards technology new",
   "nist national institute standard standards technology new",
   "alpha beta", "gamma delta", "epsilon zeta"]

/-- A centroid over the seven-term vocabulary of `nistExampleCorpus` putting
all weight on the nist column. -/
def nistExampleCentroid : List ℚ := [0, 0, 0, 1, 0, 0, 0]

/-! ## Helper lemmas: coordinates, sums, and the mean-minimization property -/

theorem list_sum_sq_expand (l : List ℚ) (c : ℚ) :
    (l.map (fun a => (a - c)^2)).sum =
      (l.map (fun a => a^2)).sum - 2*c*l.sum + l.length * c^2 := by
  induction l with
  | nil => simp
  | cons a l ih =>
      simp only [List.map_cons, List.sum_cons, List.length_cons, ih]
      push_cast
      ring

theorem list_mean_min (l : List ℚ) (c : ℚ) (h : l ≠ []) :
    (l.map (fun a => (a - l.sum / l.length)^2)).sum ≤ (l.map (fun a => (a - c)^2)).sum := by
  have hn : (0:ℚ) < l.length := by exact_mod_cast List.length_pos.mpr h
  have hn0 : (l.length : ℚ) ≠ 0 := ne_of_gt hn
  rw [list_sum_sq_expand, list_sum_sq_expand]
  have key : ((l.map (fun a => a^2)).sum - 2*c*l.sum + l.length * c^2)
      - ((l.map (fun a => a^2)).sum - 2*(l.sum / l.length)*l.sum
          + l.length * (l.sum / l.length)^2)
      = ((l.length : ℚ) * c - l.sum)^2 / l.length := by
    field_simp
    ring
  have hpos : (0:ℚ) ≤ ((l.length : ℚ) * c - l.sum)^2 / l.length :=
    div_nonneg (sq_nonneg _) hn.le
  linarith [key, hpos]

theorem getD_mem {α : Type} (l : List α) (d : α) (i : ℕ) (h : i < l.length) :
    l.getD i d ∈ l := by
  rw [List.getD_eq_getElem?_getD, List.getElem?_eq_getElem h]
  exact List.getElem_mem _

theorem getD_replicate (m j : ℕ) (h : j < m) : (List.replicate m (0:ℚ)).getD j 0 = 0 := by
  simp [List.getD_eq_getElem?_getD, List.getElem?_replicate, h]

theorem getD_zipWith (f : ℚ → ℚ → ℚ) (a b : List ℚ) (j : ℕ)
    (ha : j < a.length) (hb : j < b.length) :
    (List.zipWith f a b).getD j 0 = f (a.getD j 0) (b.getD j 0) := by
  rw [List.getD_eq_getElem?_getD, List.getElem?_zipWith,
    List.getElem?_eq_getElem ha, List.getElem?_eq_getElem hb]
  simp [List.getD_eq_getElem?_getD, List.getElem?_eq_getElem, ha, hb]

theorem getD_map_range {α : Type} (f : ℕ → α) (k i : ℕ) (h : i < k) (d : α) :
    ((List.range k).map f).getD i d = f i := by
  rw [List.getD_eq_getElem?_getD]
  simp [List.getElem?_map, List.getElem?_range, h]

theorem getD_map_of_lt (f : ℚ → ℚ) (l : List ℚ) (j : ℕ) (h : j < l.length) :
    (l.map f).getD j 0 = f (l.getD j 0) := by
  rw [List.getD_eq_getElem?_getD, List.getElem?_map, List.getElem?_eq_getElem h]
  simp [List.getD_eq_getElem?_getD, List.getElem?_eq_getElem h]

theorem vecSum_length (m : ℕ) (pts : List (List ℚ)) (h : ∀ r ∈ pts, r.length = m) :
    (vecSum m pts).length = m := by
  induction pts with
  | nil => simp [vecSum]
  | cons x pts ih =>
      have hx : x.length = m := h x (List.mem_cons_self _ _)
      have ih' : (vecSum m pts).length = m := ih (fun r hr => h r (List.mem_cons_of_mem _ hr))
      show (vecAdd x (vecSum m pts)).length = m
      rw [vecAdd, List.length_zipWith, hx, ih', min_self]

theorem vecSum_getD (m : ℕ) (pts : List (List ℚ)) (j : ℕ) (hj : j < m)
    (h : ∀ r ∈ pts, r.length = m) :
    (vecSum m pts).getD j 0 = (pts.map (fun r => r.getD j 0)).sum := by
  induction pts with
  | nil => simp [vecSum, getD_replicate m j hj]
  | cons x pts ih =>
      have hx : x.length = m := h x (List.mem_cons_self _ _)
      have htail : ∀ r ∈ pts, r.length = m := fun r hr => h r (List.mem_cons_of_mem _ hr)
      have hlen : (vecSum m pts).length = m := vecSum_length m pts htail
      show (vecAdd x (vecSum m pts)).getD j 0 = _
      rw [vecAdd, getD_zipWith _ _ _ _ (by omega) (by omega), ih htail]
      simp

theorem centroidOf_length (m : ℕ) (pts : List (List ℚ)) (h : ∀ r ∈ pts, r.length = m) :
    (centroidOf m pts).length = m := by
  simp [centroidOf, vecSum_length m pts h]

theorem centroidOf_getD (m : ℕ) (pts : List (List ℚ)) (j : ℕ) (hj : j < m)
    (h : ∀ r ∈ pts, r.length = m) :
    (centroidOf m pts).getD j 0 = (pts.map (fun r => r.getD j 0)).sum / pts.length := by
  have hlen := vecSum_length m pts h
  rw [centroidOf, getD_map_of_lt _ _ _ (by omega), vecSum_getD m pts j hj h]

theorem dist2_eq_sum (m : ℕ) : ∀ (x y : List ℚ), x.length = m → y.length = m →
    dist2 x y = ∑ j ∈ Finset.range m, (x.getD j 0 - y.getD j 0)^2 := by
  induction m with
  | zero =>
      intro x y hx hy
      rw [List.length_eq_zero] at hx hy
      subst hx; subst hy
      simp [dist2]
  | succ m ih =>
      intro x y hx hy
      cases x with
      | nil => simp at hx
      | cons a x' =>
          cases y with
          | nil => simp at hy
          | cons b y' =>
              have hcons : dist2 (a :: x') (b :: y') = (a - b)^2 + dist2 x' y' := by
                simp [dist2]
              rw [hcons, Finset.sum_range_succ']
              simp only [List.getD_cons_succ, List.getD_cons_zero]
              rw [ih x' y' (by simpa using hx) (by simpa using hy)]
              ring

theorem sum_map_range_sum {α : Type} (l : List α) (m : ℕ) (f : α → ℕ → ℚ) :
    (l.map (fun x => ∑ j ∈ Finset.range m, f x j)).sum =
      ∑ j ∈ Finset.range m, (l.map (fun x => f x j)).sum := by
  induction l with
  | nil => simp
  | cons x l ih => simp [ih, Finset.sum_add_distrib]

theorem centroid_min (m : ℕ) (pts : List (List ℚ)) (c : List ℚ) (hne : pts ≠ [])
    (hp : ∀ r ∈ pts, r.length = m) (hc : c.length = m) :
    (pts.map (fun x => dist2 x (centroidOf m pts))).sum ≤
      (pts.map (fun x => dist2 x c)).sum := by
  have hcl : (centroidOf m pts).length = m := centroidOf_length m pts hp
  have h1 : pts.map (fun x => dist2 x (centroidOf m pts))
      = pts.map (fun x => ∑ j ∈ Finset.range m, (x.getD j 0 - (centroidOf m pts).getD j 0)^2) :=
    List.map_congr_left (fun x hx => dist2_eq_sum m x _ (hp x hx) hcl)
  have h2 : pts.map (fun x => dist2 x c)
      = pts.map (fun x => ∑ j ∈ Finset.range m, (x.getD j 0 - c.getD j 0)^2) :=
    List.map_congr_left (fun x hx => dist2_eq_sum m x c (hp x hx) hc)
  rw [h1, h2, sum_map_range_sum, sum_map_range_sum]
  apply Finset.sum_le_sum
  intro j hj
  have hj' : j < m := Finset.mem_range.mp hj
  rw [centroidOf_getD m pts j hj' hp]
  have hmapne : pts.map (fun r => r.getD j 0) ≠ [] := by
    intro hmap
    exact hne (List.map_eq_nil_iff.mp hmap)
  have hmean := list_mean_min (pts.map (fun r => r.getD j 0)) (c.getD j 0) hmapne
  simpa [List.map_map, Function.comp, List.length_map] using hmean

/-! ## Helper lemmas: assignment and update steps -/

theorem argmin_succ (f : ℕ → ℚ) (k : ℕ) :
    argmin f (k+1) = if f k < f (argmin f k) then k else argmin f k := by
  rw [argmin, argmin, List.range_succ, List.foldl_append]
  rfl

theorem argmin_lt (f : ℕ → ℚ) (k : ℕ) (h : 0 < k) : argmin f k < k := by
  induction k with
  | zero => omega
  | succ k ih =>
      rw [argmin_succ]
      split
      · exact Nat.lt_succ_self k
      · rcases Nat.eq_zero_or_pos k with h0 | hk
        · subst h0
          norm_num [argmin]
        · exact Nat.lt_succ_of_lt (ih hk)

theorem argmin_le (f : ℕ → ℚ) (k : ℕ) : ∀ i < k, f (argmin f k) ≤ f i := by
  induction k with
  | zero => intro i hi; omega
  | succ k ih =>
      intro i hi
      rw [argmin_succ]
      rcases Nat.lt_succ_iff_lt_or_eq.mp hi with hik | rfl
      · split
        · next hlt => exact le_trans (le_of_lt hlt) (ih i hik)
        · exact ih i hik
      · split
        · exact le_refl _
        · next hnlt => exact le_of_not_lt hnlt

theorem assignStep_length (cs X : List (List ℚ)) : (assignStep cs X).length = X.length := by
  simp [assignStep]

theorem assignStep_lt (cs X : List (List ℚ)) (h : cs ≠ []) :
    ∀ l ∈ assignStep cs X, l < cs.length := by
  intro l hl
  rw [assignStep, List.mem_map] at hl
  obtain ⟨x, _, rfl⟩ := hl
  exact argmin_lt _ _ (List.length_pos.mpr h)

theorem objective_nil_left (labels : List ℕ) (cs : List (List ℚ)) :
    objective [] labels cs = 0 := by
  simp [objective]

theorem objective_cons (x : List ℚ) (X : List (List ℚ)) (l : ℕ) (ls : List ℕ)
    (cs : List (List ℚ)) :
    objective (x :: X) (l :: ls) cs = dist2 x (cs.getD l []) + objective X ls cs := by
  simp [objective]

theorem assignStep_cons (cs : List (List ℚ)) (x : List ℚ) (X : List (List ℚ)) :
    assignStep cs (x :: X)
      = argmin (fun i => dist2 x (cs.getD i [])) cs.length :: assignStep cs X := by
  simp [assignStep]

theorem assignStep_optimal (cs X : List (List ℚ)) (labels : List ℕ)
    (hlen : labels.length = X.length) (hval : ∀ l ∈ labels, l < cs.length) :
    objective X (assignStep cs X) cs ≤ objective X labels cs := by
  induction X generalizing labels with
  | nil => simp [objective, assignStep]
  | cons x X ih =>
      cases labels with
      | nil => simp at hlen
      | cons l ls =>
          have ihl := ih ls (by simpa using hlen)
            (fun q hq => hval q (List.mem_cons_of_mem _ hq))
          rw [assignStep_cons, objective_cons, objective_cons]
          have hhead :
              dist2 x (cs.getD (argmin (fun i => dist2 x (cs.getD i [])) cs.length) [])
                ≤ dist2 x (cs.getD l []) :=
            argmin_le (fun i => dist2 x (cs.getD i [])) cs.length l
              (hval l (List.mem_cons_self _ _))
          exact add_le_add hhead ihl

theorem members_cons (i : ℕ) (p : List ℚ × ℕ) (L : List (List ℚ × ℕ)) :
    members i (p :: L) = if p.2 = i then p.1 :: members i L else members i L := by
  by_cases h : p.2 = i <;> simp [members, List.filterMap_cons, h]

theorem sum_partition (k : ℕ) (F : List ℚ → ℕ → ℚ) :
    ∀ (L : List (List ℚ × ℕ)), (∀ p ∈ L, p.2 < k) →
      (L.map (fun p => F p.1 p.2)).sum =
        ∑ i ∈ Finset.range k, ((members i L).map (fun x => F x i)).sum := by
  intro L
  induction L with
  | nil => intro _; simp [members]
  | cons p L ih =>
      intro hv
      have hp : p.2 < k := hv p (List.mem_cons_self _ _)
      have ihL := ih (fun q hq => hv q (List.mem_cons_of_mem _ hq))
      simp only [List.map_cons, List.sum_cons, ihL]
      have hsplit : ∀ i ∈ Finset.range k,
          ((members i (p :: L)).map (fun x => F x i)).sum
            = ((members i L).map (fun x => F x i)).sum
              + (if i = p.2 then F p.1 p.2 else 0) := by
        intro i _
        rw [members_cons]
        by_cases h : p.2 = i
        · subst h
          simp [add_comm]
        · rw [if_neg h, if_neg (fun hh => h hh.symm)]
          simp
      rw [Finset.sum_congr rfl hsplit, Finset.sum_add_distrib,
        Finset.sum_ite_eq' (Finset.range k) p.2 (fun _ => F p.1 p.2),
        if_pos (Finset.mem_range.mpr hp)]
      ring

theorem updateStep_length (m : ℕ) (X : List (List ℚ)) (labels : List ℕ)
    (cs : List (List ℚ)) : (updateStep m X labels cs).length = cs.length := by
  simp [updateStep]

theorem updateStep_getD (m : ℕ) (X : List (List ℚ)) (labels : List ℕ)
    (cs : List (List ℚ)) (i : ℕ) (h : i < cs.length) :
    (updateStep m X labels cs).getD i []
      = if members i (X.zip labels) = [] then cs.getD i []
        else centroidOf m (members i (X.zip labels)) := by
  rw [updateStep]
  exact getD_map_range _ _ _ h _

theorem members_rows_length (m : ℕ) (X : List (List ℚ)) (labels : List ℕ) (i : ℕ)
    (hX : ∀ x ∈ X, x.length = m) :
    ∀ r ∈ members i (X.zip labels), r.length = m := by
  intro r hr
  rw [members, List.mem_filterMap] at hr
  obtain ⟨p, hp, hcond⟩ := hr
  obtain ⟨a, b⟩ := p
  have hr' : a = r := by
    by_cases h : b = i
    · rw [if_pos h] at hcond
      exact Option.some.inj hcond
    · rw [if_neg h] at hcond
      cases hcond
  subst hr'
  exact hX a (List.of_mem_zip hp).1

theorem updateStep_rows_length (m : ℕ) (X : List (List ℚ)) (labels : List ℕ)
    (cs : List (List ℚ)) (hX : ∀ x ∈ X, x.length = m) (hcs : ∀ c ∈ cs, c.length = m) :
    ∀ c ∈ updateStep m X labels cs, c.length = m := by
  intro c hc
  rw [updateStep, List.mem_map] at hc
  obtain ⟨i, hi, rfl⟩ := hc
  have hi' : i < cs.length := List.mem_range.mp hi
  split
  · exact hcs _ (getD_mem cs [] i hi')
  · exact centroidOf_length m _ (members_rows_length m X labels i hX)

theorem updateStep_le (m : ℕ) (X : List (List ℚ)) (labels : List ℕ) (cs : List (List ℚ))
    (hval : ∀ l ∈ labels, l < cs.length)
    (hX : ∀ x ∈ X, x.length = m) (hcs : ∀ c ∈ cs, c.length = m) :
    objective X labels (updateStep m X labels cs) ≤ objective X labels cs := by
  have hzip : ∀ p ∈ X.zip labels, p.2 < cs.length := by
    intro p hp
    obtain ⟨a, b⟩ := p
    exact hval b (List.of_mem_zip hp).2
  have h1 := sum_partition cs.length
    (fun x i => dist2 x ((updateStep m X labels cs).getD i [])) (X.zip labels) hzip
  have h2 := sum_partition cs.length (fun x i => dist2 x (cs.getD i []))
    (X.zip labels) hzip
  calc objective X labels (updateStep m X labels cs)
      = ∑ i ∈ Finset.range cs.length,
          ((members i (X.zip labels)).map
            (fun x => dist2 x ((updateStep m X labels cs).getD i []))).sum := h1
    _ ≤ ∑ i ∈ Finset.range cs.length,
          ((members i (X.zip labels)).map (fun x => dist2 x (cs.getD i []))).sum := by
        apply Finset.sum_le_sum
        intro i hi
        have hi' : i < cs.length := Finset.mem_range.mp hi
        rw [updateStep_getD m X labels cs i hi']
        by_cases hemp : members i (X.zip labels) = []
        · rw [if_pos hemp]
        · rw [if_neg hemp]
          exact centroid_min m _ _ hemp (members_rows_length m X labels i hX)
            (hcs _ (getD_mem cs [] i hi'))
    _ = objective X labels cs := h2.symm

/-- C2: within one restart, the objective value (sum over all documents of the
squared Euclidean distance to the assigned centroid) never increases from one
iteration (assignment step followed by centroid update step) to the next. -/
theorem objective_monotone (m : ℕ) (X cs : List (List ℚ)) (hne : cs ≠ [])
    (hcs : ∀ c ∈ cs, c.length = m) (hX : ∀ x ∈ X, x.length = m) :
    objAfter m X (kmIterate m X cs).2 ≤ objAfter m X cs := by
  have hlen' : (updateStep m X (assignStep cs X) cs).length = cs.length :=
    updateStep_length m X (assignStep cs X) cs
  have hne' : updateStep m X (assignStep cs X) cs ≠ [] := by
    intro h
    apply hne
    rw [← List.length_eq_zero, ← hlen', h]
    rfl
  have hrows' : ∀ c ∈ updateStep m X (assignStep cs X) cs, c.length = m :=
    updateStep_rows_length m X (assignStep cs X) cs hX hcs
  have stepA : objective X (assignStep (updateStep m X (assignStep cs X) cs) X)
      (updateStep m X (assignStep (updateStep m X (assignStep cs X) cs) X)
        (updateStep m X (assignStep cs X) cs))
      ≤ objective X (assignStep (updateStep m X (assignStep cs X) cs) X)
          (updateStep m X (assignStep cs X) cs) :=
    updateStep_le m X _ _ (assignStep_lt _ X hne') hX hrows'
  have stepB : objective X (assignStep (updateStep m X (assignStep cs X) cs) X)
      (updateStep m X (assignStep cs X) cs)
      ≤ objective X (assignStep cs X) (updateStep m X (assignStep cs X) cs) :=
    assignStep_optimal (updateStep m X (assignStep cs X) cs) X (assignStep cs X)
      (assignStep_length cs X)
      (by
        intro l hl
        rw [hlen']
        exact assignStep_lt cs X hne l hl)
  exact le_trans stepA stepB

/-- C2 witness: a concrete two-row instance on which the theorem applies. -/
theorem objective_monotone_witness :
    (([[1], [2]] : List (List ℚ)) ≠ []) ∧
      objAfter 1 [[0], [10]] (kmIterate 1 [[0], [10]] [[1], [2]]).2
        ≤ objAfter 1 [[0], [10]] [[1], [2]] :=
  ⟨by decide, objective_monotone 1 [[0], [10]] [[1], [2]] (by decide) (by decide) (by decide)⟩

/-! ## Helper lemmas: initialization, loop, restarts -/

theorem kmInitAux_length (X : List (List ℚ)) :
    ∀ (n : ℕ) (acc : List (List ℚ)) (s : ℕ),
      (kmInitAux X n acc s).length = n + acc.length := by
  intro n
  induction n with
  | zero => intro acc s; simp [kmInitAux]
  | succ n ih =>
      intro acc s
      rw [kmInitAux, ih]
      simp [List.length_cons]
      omega

theorem kmInit_length (X : List (List ℚ)) (k seed : ℕ) : (kmInit X k seed).length = k := by
  rw [kmInit, kmInitAux_length]
  rfl

theorem kmLoop_labels (m : ℕ) (X : List (List ℚ)) (tol : ℚ) (k : ℕ) (hk : 0 < k) :
    ∀ (fuel : ℕ) (cs : List (List ℚ)) (prev : Option (List ℕ)) (iters : ℕ),
      cs.length = k →
      (∀ p, prev = some p → p.length = X.length ∧ ∀ l ∈ p, l < k) →
      (kmLoop m X tol fuel cs prev iters).labels.length = X.length ∧
        ∀ l ∈ (kmLoop m X tol fuel cs prev iters).labels, l < k := by
  intro fuel
  induction fuel with
  | zero =>
      intro cs prev iters hcs hprev
      have hne : cs ≠ [] := List.length_pos.mp (by rw [hcs]; exact hk)
      cases prev with
      | none =>
          refine ⟨assignStep_length cs X, ?_⟩
          intro l hl
          have := assignStep_lt cs X hne l hl
          rwa [hcs] at this
      | some p => exact hprev p rfl
  | succ fuel ih =>
      intro cs prev iters hcs hprev
      have hne : cs ≠ [] := List.length_pos.mp (by rw [hcs]; exact hk)
      rw [kmLoop]
      split
      · refine ⟨assignStep_length cs X, ?_⟩
        intro l hl
        have := assignStep_lt cs X hne l hl
        rwa [hcs] at this
      · refine ih _ (some (assignStep cs X)) (iters + 1)
          (by rw [updateStep_length, hcs]) ?_
        intro p hp
        have hp' : assignStep cs X = p := Option.some.inj hp
        subst hp'
        refine ⟨assignStep_length cs X, ?_⟩
        intro l hl
        have := assignStep_lt cs X hne l hl
        rwa [hcs] at this

theorem kmSingleRun_labels (m : ℕ) (X : List (List ℚ)) (k seed maxIter : ℕ) (tol : ℚ)
    (hk : 0 < k) :
    (kmSingleRun m X k seed maxIter tol).labels.length = X.length ∧
      ∀ l ∈ (kmSingleRun m X k seed maxIter tol).labels, l < k := by
  rw [kmSingleRun]
  exact kmLoop_labels m X tol k hk maxIter (kmInit X k seed) none 0
    (kmInit_length X k seed) (fun p hp => by cases hp)

theorem kmRuns_labels (m : ℕ) (X : List (List ℚ)) (k maxIter : ℕ) (tol : ℚ) (hk : 0 < k) :
    ∀ (n s : ℕ), ∀ res ∈ kmRuns m X k maxIter tol n s,
      res.labels.length = X.length ∧ ∀ l ∈ res.labels, l < k := by
  intro n
  induction n with
  | zero => intro s res h; simp [kmRuns] at h
  | succ n ih =>
      intro s res h
      rw [kmRuns] at h
      rcases List.mem_cons.mp h with rfl | h'
      · exact kmSingleRun_labels m X k s maxIter tol hk
      · exact ih _ res h'

theorem kmBest_mem : ∀ (rs : List KMResult) (r : KMResult), kmBest r rs ∈ r :: rs := by
  intro rs
  induction rs with
  | nil => intro r; simp [kmBest]
  | cons x rs ih =>
      intro r
      show kmBest (if x.objValue < r.objValue then x else r) rs ∈ r :: x :: rs
      by_cases hx : x.objValue < r.objValue
      · rw [if_pos hx]
        rcases List.mem_cons.mp (ih x) with heq | hmem
        · rw [heq]
          exact List.mem_cons_of_mem _ (List.mem_cons_self _ _)
        · exact List.mem_cons_of_mem _ (List.mem_cons_of_mem _ hmem)
      · rw [if_neg hx]
        rcases List.mem_cons.mp (ih r) with heq | hmem
        · rw [heq]
          exact List.mem_cons_self _ _
        · exact List.mem_cons_of_mem _ (List.mem_cons_of_mem _ hmem)

/-- C1: whenever the clusterer terminates successfully (converged or not, over
any number of restarts), the returned assignment gives every document row
exactly one cluster label, and every label lies in the half-open range
`[0, k)`. -/
theorem kmFit_labels_valid (cfg : KMConfig) (X : List (List ℚ)) (r : KMResult)
    (h : kmFit cfg X = .ok r) :
    r.labels.length = X.length ∧ ∀ l ∈ r.labels, l < cfg.k := by
  rw [kmFit] at h
  split at h
  · cases h
  · split at h
    · cases h
    · next hcond _ =>
        have hk : 0 < cfg.k := by
          rcases Nat.eq_zero_or_pos cfg.k with h0 | hpos
          · exact absurd (Or.inl h0) hcond
          · exact hpos
        split at h
        · cases h
        · next r₁ rs heq =>
            have hr : r = kmBest r₁ rs := (Except.ok.inj h).symm
            have hmem : kmBest r₁ rs ∈ r₁ :: rs := kmBest_mem rs r₁
            rw [← heq] at hmem
            have := kmRuns_labels (X.headD []).length X cfg.k cfg.maxIter cfg.tol hk
              cfg.nRestarts cfg.seed (kmBest r₁ rs) hmem
            rw [← hr] at this
            exact this

/-- C5: a cluster count of zero or larger than the number of document rows is
rejected with a `ConfigurationError`; no initialization is attempted and no
partial result is produced. -/
theorem kmFit_config_error (cfg : KMConfig) (X : List (List ℚ))
    (h : cfg.k = 0 ∨ X.length < cfg.k) :
    kmFit cfg X = .error .ConfigurationError := by
  rw [kmFit, if_pos h]

/-- C5 witness: requesting three clusters over one document row fails. -/
theorem kmFit_config_error_witness :
    (([[1]] : List (List ℚ)).length < 3) ∧
      kmFit ⟨3, 100, 10, 0, 0⟩ [[1]] = .error .ConfigurationError :=
  ⟨by decide, kmFit_config_error ⟨3, 100, 10, 0, 0⟩ [[1]] (Or.inr (by decide))⟩

/-- C7: with the random source seeded through the configuration, a single
restart run is a pure function of its inputs: two runs from the same
configuration and matrix return identical assignments and centroids. -/
theorem kmFit_deterministic (cfg : KMConfig) (X : List (List ℚ)) (r₁ r₂ : KMResult)
    (_hrestarts : cfg.nRestarts = 1)
    (h₁ : kmFit cfg X = .ok r₁) (h₂ : kmFit cfg X = .ok r₂) :
    r₁.labels = r₂.labels ∧ r₁.centroids = r₂.centroids := by
  rw [h₁] at h₂
  have := Except.ok.inj h₂
  rw [this]
  exact ⟨rfl, rfl⟩

/-- C1 witness: a concrete successful two-document run with one cluster. -/
theorem kmFit_labels_valid_witness :
    kmFit ⟨1, 1, 1, 0, 0⟩ [[1], [3]] = .ok ⟨[[2]], [0, 0], 1, false, 2⟩ ∧
      ((⟨[[2]], [0, 0], 1, false, 2⟩ : KMResult).labels.length
          = ([[1], [3]] : List (List ℚ)).length ∧
        ∀ l ∈ (⟨[[2]], [0, 0], 1, false, 2⟩ : KMResult).labels,
          l < (⟨1, 1, 1, 0, 0⟩ : KMConfig).k) :=
  have heval : kmFit ⟨1, 1, 1, 0, 0⟩ [[1], [3]] = .ok ⟨[[2]], [0, 0], 1, false, 2⟩ := by
    norm_num [kmFit, kmRuns, kmSingleRun, kmLoop, kmInit, kmInitAux, kmppPick, rngNext,
      assignStep, updateStep, argmin, members, centroidOf, vecSum, vecAdd, dist2,
      movement2, objective, kmBest, List.range_succ, List.filterMap_cons,
      List.zip_cons_cons,
      (show (([[(1:ℚ)], [3]]) : List (List ℚ)) ≠ [] by decide),
      (show ((none : Option (List ℕ))) ≠ some [0, 0] by decide)]
  ⟨heval, kmFit_labels_valid ⟨1, 1, 1, 0, 0⟩ [[1], [3]] ⟨[[2]], [0, 0], 1, false, 2⟩ heval⟩

/-- C7 witness: a concrete seeded single-restart run, applied twice. -/
theorem kmFit_deterministic_witness :
    kmFit ⟨1, 1, 1, 0, 7⟩ [[5], [9]] = .ok ⟨[[7]], [0, 0], 1, false, 8⟩ ∧
      ((⟨1, 1, 1, 0, 7⟩ : KMConfig).nRestarts = 1) ∧
      ((⟨[[7]], [0, 0], 1, false, 8⟩ : KMResult).labels
          = (⟨[[7]], [0, 0], 1, false, 8⟩ : KMResult).labels ∧
        (⟨[[7]], [0, 0], 1, false, 8⟩ : KMResult).centroids
          = (⟨[[7]], [0, 0], 1, false, 8⟩ : KMResult).centroids) :=
  have heval : kmFit ⟨1, 1, 1, 0, 7⟩ [[5], [9]] = .ok ⟨[[7]], [0, 0], 1, false, 8⟩ := by
    norm_num [kmFit, kmRuns, kmSingleRun, kmLoop, kmInit, kmInitAux, kmppPick, rngNext,
      assignStep, updateStep, argmin, members, centroidOf, vecSum, vecAdd, dist2,
      movement2, objective, kmBest, List.range_succ, List.filterMap_cons,
      List.zip_cons_cons,
      (show (([[(5:ℚ)], [9]]) : List (List ℚ)) ≠ [] by decide),
      (show ((none : Option (List ℕ))) ≠ some [0, 0] by decide)]
  ⟨heval, rfl,
    kmFit_deterministic ⟨1, 1, 1, 0, 7⟩ [[5], [9]] ⟨[[7]], [0, 0], 1, false, 8⟩
      ⟨[[7]], [0, 0], 1, false, 8⟩ rfl heval heval⟩

/-! ## Helper lemmas: vectorizer -/

theorem rat_le_mul_iff (dft n : ℕ) (q : ℚ) :
    ((dft * q.den : ℤ) ≤ q.num * n) ↔ ((dft : ℚ) ≤ q * n) := by
  have hq : (0:ℚ) < (q.den : ℚ) := by exact_mod_cast q.den_pos
  constructor
  · intro h
    rw [← Rat.num_div_den q, div_mul_eq_mul_div, le_div_iff₀ hq]
    exact_mod_cast h
  · intro h
    rw [← Rat.num_div_den q, div_mul_eq_mul_div, le_div_iff₀ hq] at h
    exact_mod_cast h

theorem dfKeep_iff (cfg : VecConfig) (n dft : ℕ) :
    dfKeep cfg n dft = true ↔ (cfg.minDf ≤ dft ∧ (dft : ℚ) ≤ cfg.maxDf * n) := by
  rw [dfKeep, Bool.and_eq_true, decide_eq_true_eq, decide_eq_true_eq,
    rat_le_mul_iff dft n cfg.maxDf]

theorem mem_allTerms (stop : List String) (docs : List String) (t : String) :
    t ∈ allTerms stop docs ↔ ∃ d ∈ docs, t ∈ docTokens stop d := by
  rw [allTerms, List.mem_dedup, List.mem_flatten]
  constructor
  · rintro ⟨s, hs, ht⟩
    rw [List.mem_map] at hs
    obtain ⟨d, hd, rfl⟩ := hs
    exact ⟨d, hd, ht⟩
  · rintro ⟨d, hd, ht⟩
    exact ⟨docTokens stop d, List.mem_map_of_mem _ hd, ht⟩

theorem df_pos_iff (stop docs : List String) (t : String) :
    0 < df stop docs t ↔ ∃ d ∈ docs, t ∈ docTokens stop d := by
  rw [df, List.length_pos]
  constructor
  · intro h
    rcases List.exists_mem_of_ne_nil _ h with ⟨d, hd⟩
    have hm := List.mem_filter.mp hd
    exact ⟨d, hm.1, of_decide_eq_true hm.2⟩
  · rintro ⟨d, hd, ht⟩
    intro hnil
    have hm : d ∈ docs.filter (fun d => decide (t ∈ docTokens stop d)) :=
      List.mem_filter.mpr ⟨hd, decide_eq_true ht⟩
    rw [hnil] at hm
    cases hm

/-- C4: a term is a column of the term matrix (a member of the retained
vocabulary) exactly when its document frequency lies between the minimum
count and the maximum fraction of the corpus size (both bounds inclusive);
stated for configurations with a positive minimum count, which is what makes
the bound characterize retention over arbitrary candidate strings. -/
theorem vocabulary_mem_iff (cfg : VecConfig) (docs : List String) (t : String)
    (hmin : 1 ≤ cfg.minDf) :
    t ∈ vocabulary cfg docs ↔
      cfg.minDf ≤ df cfg.stop docs t ∧
        (df cfg.stop docs t : ℚ) ≤ cfg.maxDf * docs.length := by
  rw [vocabulary, (List.perm_insertionSort strLe _).mem_iff, List.mem_filter,
    dfKeep_iff]
  constructor
  · exact fun h => h.2
  · intro h
    refine ⟨?_, h⟩
    have hpos : 0 < df cfg.stop docs t := lt_of_lt_of_le hmin h.1
    rw [mem_allTerms]
    exact (df_pos_iff cfg.stop docs t).mp hpos

/-- C4 witness: a three-document corpus where the term ab has document
frequency two and is retained. -/
theorem vocabulary_mem_iff_witness :
    1 ≤ (⟨2, 1, []⟩ : VecConfig).minDf ∧
      "ab" ∈ vocabulary ⟨2, 1, []⟩ ["ab cd", "ab ef", "gh ij"] ∧
      ("ab" ∈ vocabulary ⟨2, 1, []⟩ ["ab cd", "ab ef", "gh ij"] ↔
        (⟨2, 1, []⟩ : VecConfig).minDf ≤ df [] ["ab cd", "ab ef", "gh ij"] "ab" ∧
          (df [] ["ab cd", "ab ef", "gh ij"] "ab" : ℚ)
            ≤ (⟨2, 1, []⟩ : VecConfig).maxDf
                * (["ab cd", "ab ef", "gh ij"] : List String).length) :=
  ⟨by decide, by decide, vocabulary_mem_iff ⟨2, 1, []⟩ ["ab cd", "ab ef", "gh ij"] "ab" (by decide)⟩

/-- C6: an empty corpus, or a corpus whose vocabulary is empty after
frequency filtering, is rejected with an `EmptyCorpusError` before the
clustering phase is reached. -/
theorem pipeline_empty_corpus (vcfg : VecConfig) (kcfg : KMConfig) (docs : List String)
    (h : docs = [] ∨ vocabulary vcfg docs = []) :
    pipeline vcfg kcfg docs = .error .EmptyCorpusError := by
  rcases h with h | h
  · rw [pipeline, if_pos h]
  · by_cases hd : docs = []
    · rw [pipeline, if_pos hd]
    · rw [pipeline, if_neg hd, if_pos h]

/-- C6 witness: a corpus of pure stop words retains no vocabulary term and is
rejected. -/
theorem pipeline_empty_corpus_witness :
    vocabulary ⟨2, 1, englishStopWords⟩ ["the a", "a the"] = [] ∧
      pipeline ⟨2, 1, englishStopWords⟩ ⟨1, 1, 1, 0, 0⟩ ["the a", "a the"]
        = .error .EmptyCorpusError :=
  ⟨by decide,
    pipeline_empty_corpus ⟨2, 1, englishStopWords⟩ ⟨1, 1, 1, 0, 0⟩ ["the a", "a the"]
      (Or.inr (by decide))⟩

/-! ## The remaining claims -/

/-- C3: the notebook corpus builder pairs every headline with every
description (a cross product), not positionally: on headline list [a, b] and
description list [x, y] it yields the four documents [ax, ay, bx, by], while
the positional pairing the spec intends yields the two documents [ax, by]. -/
theorem news_is_cross_product :
    news ["a", "b"] ["x", "y"] = ["ax", "ay", "bx", "by"] ∧
      newsPaired ["a", "b"] ["x", "y"] = ["ax", "by"] ∧
      (news ["a", "b"] ["x", "y"]).length ≠ (["a", "b"] : List String).length :=
  ⟨by decide, by decide, by decide⟩

theorem kmStateIter_matrix (m : ℕ) :
    ∀ (n : ℕ) (s : KMState), (kmStateIter m n s).matrix = s.matrix := by
  intro n
  induction n with
  | zero => intro s; rfl
  | succ n ih =>
      intro s
      rw [kmStateIter, ih]
      rfl

/-- C9: the full Initialized-to-Terminal cycle, over any number of restarts,
leaves the term matrix equal entry-for-entry to the matrix it started from;
every write of the state machine touches only the centroid and assignment
components. -/
theorem kmRestartCycle_matrix_unchanged (m k maxIter : ℕ) :
    ∀ (n seed : ℕ) (s : KMState),
      (kmRestartCycle m k maxIter n seed s).matrix = s.matrix := by
  intro n
  induction n with
  | zero => intro seed s; rfl
  | succ n ih =>
      intro seed s
      rw [kmRestartCycle, ih, kmStateIter_matrix]

/-- C8: the reporting helper maps the first `n` positions of the descending
argsort of a centroid through the index-to-term mapping; the argsort is a
permutation of all column indices sorted by descending weight, so the picked
terms carry the `n` largest weights in descending order, and the query
returns its inputs unchanged. -/
theorem topTerms_correct (terms : List String) (c : List ℚ) (n : ℕ) :
    topTermsOfCentroid terms c n
        = ((argsortDesc c).take n).map (fun i => terms.getD i "") ∧
      List.Sorted (fun i j => c.getD j 0 ≤ c.getD i 0) (argsortDesc c) ∧
      (argsortDesc c).Perm (List.range c.length) ∧
      (∀ i ∈ (argsortDesc c).take n, ∀ j ∈ (argsortDesc c).drop n,
        c.getD j 0 ≤ c.getD i 0) ∧
      ∀ st : KMState, (reportTopTerms terms st n).1 = (terms, st) := by
  haveI htot : IsTotal ℕ (fun i j => c.getD j 0 ≤ c.getD i 0) :=
    ⟨fun i j => le_total _ _⟩
  haveI htr : IsTrans ℕ (fun i j => c.getD j 0 ≤ c.getD i 0) :=
    ⟨fun a b d hab hbd => le_trans hbd hab⟩
  have hsorted : List.Sorted (fun i j => c.getD j 0 ≤ c.getD i 0) (argsortDesc c) :=
    List.sorted_insertionSort _ _
  refine ⟨rfl, hsorted, List.perm_insertionSort _ _, ?_, fun st => rfl⟩
  intro i hi j hj
  exact hsorted.rel_of_mem_take_of_mem_drop hi hj

/-- C8 witness: on the centroid [1, 5, 3] the top two terms are beta then
gamma, and each taken index carries a weight at least every dropped one. -/
theorem topTerms_correct_witness :
    topTermsOfCentroid ["alpha", "beta", "gamma"] [1, 5, 3] 2 = ["beta", "gamma"] ∧
      ∀ i ∈ (argsortDesc ([1, 5, 3] : List ℚ)).take 2,
        ∀ j ∈ (argsortDesc ([1, 5, 3] : List ℚ)).drop 2,
          ([1, 5, 3] : List ℚ).getD j 0 ≤ ([1, 5, 3] : List ℚ).getD i 0 :=
  ⟨by decide, (topTerms_correct ["alpha", "beta", "gamma"] [1, 5, 3] 2).2.2.2.1⟩

/-- C10: the seven domain terms belong to the word-cloud stop-word set
whatever base set the library supplies, none of them belongs to the standard
English stop-word list the clustering vectorizer uses, there is a corpus
(with the source thresholds: minimum count two, maximum fraction one half)
whose clustering vocabulary retains all seven, and nist can then appear among
a cluster top-ten term list. -/
theorem domain_terms_wordcloud_only :
    (∀ (base : List String), ∀ t ∈ domainStopwords, t ∈ wordcloudStopwords base) ∧
      (∀ t ∈ domainStopwords, t ∉ englishStopWords) ∧
      (∀ t ∈ domainStopwords,
        t ∈ vocabulary ⟨2, ratHalf, englishStopWords⟩ nistExampleCorpus) ∧
      "nist" ∈ topTermsOfCentroid
        (vocabulary ⟨2, ratHalf, englishStopWords⟩ nistExampleCorpus)
        nistExampleCentroid 10 := by
  refine ⟨?_, by decide, by decide, by decide⟩
  intro base t ht
  fin_cases ht <;> simp [wordcloudStopwords, List.mem_insert_iff]

/-- C10 witness: the term nist is stopped for the word cloud, not stopped for
the vectorizer, and retained by the clustering vocabulary of the example
corpus. -/
theorem domain_terms_wordcloud_only_witness :
    "nist" ∈ wordcloudStopwords [] ∧ "nist" ∉ englishStopWords ∧
      "nist" ∈ vocabulary ⟨2, ratHalf, englishStopWords⟩ nistExampleCorpus :=
  ⟨domain_terms_wordcloud_only.1 [] "nist" (by decide),
   domain_terms_wordcloud_only.2.1 "nist" (by decide),
   domain_terms_wordcloud_only.2.2.1 "nist" (by decide)⟩
